import Mathlib

/-
Verification of the genetic-algorithm repository (Tarea2/AlgoritmoGenetico.py,
Tarea3/OptimizacionDimensionesCaja.py, Tarea4/BarraDeProteina.py).

Modelling conventions:
- Python floats are modelled as exact rationals (ℚ).
- Python exceptions (raise ValueError, IndexError, ZeroDivisionError,
  unpacking failures) are modelled with Except PyError.
- Draws from the global pseudorandom stream are passed explicitly: each
  random.random() outcome is a ℚ argument, each random.randint outcome a ℕ
  argument, and each random.gauss outcome a ℚ argument.  Universally
  quantified theorems therefore cover every possible outcome of the draws.
-/

/-- Kinds of Python exception raised by the modelled code. -/
inductive PyError where
  | valueError
  | indexError
  | zeroDivisionError
  deriving DecidableEq, Repr

deriving instance DecidableEq for Except

/-
The Batteries rational arithmetic definitions are irreducible by default,
which blocks elaborator-side evaluation of concrete programs over ℚ; making
them semireducible lets decide and rfl settle closed computations (the
kernel ignores reducibility hints, so checked proofs are unaffected).
-/
attribute [local semireducible] Rat.add Rat.mul Rat.sub Rat.inv

namespace GA

/-- Python built-in round applied to a float with an int result: round to the
nearest integer, ties to even (banker rounding, as CPython does). -/
def pyRound (q : ℚ) : ℤ :=
  if q - ⌊q⌋ < 1 / 2 then ⌊q⌋
  else if 1 / 2 < q - ⌊q⌋ then ⌊q⌋ + 1
  else if ⌊q⌋ % 2 = 0 then ⌊q⌋ else ⌊q⌋ + 1

/-- The list comprehension [(k >> i) & 1 for i in range(bits - 1, -1, -1)]
used by codificar: the bits of k, most significant first. -/
def bitsOf (k w : ℕ) : List ℕ :=
  ((List.range w).reverse).map (fun i => (k >>> i) &&& 1)

/-- The loop k = (k << 1) | (bit & 1) used by decodificar: rebuild the
integer from a most-significant-first bit list. -/
def intOfBits (bits : List ℕ) : ℕ :=
  bits.foldl (fun k bit => (k <<< 1) ||| (bit &&& 1)) 0

/-- The mutation loop shared verbatim by Tarea2.mutar_cromosoma and
Tarea3.mutar_cromosoma: for each bit (at stream position i) flip it when the
drawn u i is below the mutation probability, else copy it. -/
def mutar_bits (u : ℕ → ℚ) (probabilidad_mutacion : ℚ) : ℕ → List ℕ → List ℕ
  | _, [] => []
  | i, bit :: resto =>
      (if u i < probabilidad_mutacion then 1 - bit else bit) ::
        mutar_bits u probabilidad_mutacion (i + 1) resto

end GA

namespace Tarea2

/-- Model of codificar in Tarea2/AlgoritmoGenetico.py (byte-identical code
also appears in Tarea3/OptimizacionDimensionesCaja.py): clamp x into [a, b],
scale linearly onto [0, 2 ^ bits - 1], round, clamp the integer, and emit the
bits most significant first. -/
def codificar (x a b : ℚ) (bits : ℕ) : Except PyError (List ℕ) :=
  if b ≤ a then .error .valueError
  else
    let x2 := if x < a then a else if b < x then b else x
    let max_int : ℤ := ((1 <<< bits : ℕ) : ℤ) - 1
    let k := GA.pyRound ((x2 - a) / (b - a) * (max_int : ℚ))
    let k2 := max 0 (min max_int k)
    .ok (GA.bitsOf k2.toNat bits)

/-- Model of decodificar in Tarea2/AlgoritmoGenetico.py (byte-identical code
also appears in Tarea3/OptimizacionDimensionesCaja.py).  The Python division
k / max_int raises ZeroDivisionError when max_int is 0, i.e. exactly when the
bit list is empty; that failure is modelled explicitly. -/
def decodificar (bits : List ℕ) (a b : ℚ) : Except PyError ℚ :=
  if b ≤ a then .error .valueError
  else
    let max_int : ℕ := (1 <<< bits.length) - 1
    let k := GA.intOfBits bits
    if max_int = 0 then .error .zeroDivisionError
    else .ok (a + ((k : ℚ) / (max_int : ℚ)) * (b - a))

/-- Model of cruce_un_punto in Tarea2/AlgoritmoGenetico.py.  r is the
random.random() draw and punto the random.randint(1, n - 1) draw.  When the
crossover does not fire (r >= probabilidad_cruce) the parents are returned;
randint raises ValueError on an empty range, i.e. when n < 2. -/
def cruce_un_punto (r : ℚ) (punto : ℕ) (padre1 padre2 : List ℕ)
    (probabilidad_cruce : ℚ) : Except PyError (List ℕ × List ℕ) :=
  if padre1.length ≠ padre2.length then .error .valueError
  else if probabilidad_cruce ≤ r then .ok (padre1, padre2)
  else if padre1.length < 2 then .error .valueError
  else .ok (padre1.take punto ++ padre2.drop punto,
            padre2.take punto ++ padre1.drop punto)

/-- The loop of aplicar_cruce_poblacion: walk the population two at a time
(for i in range(0, n - 1, 2)), crossing each pair; an odd individual left at
the end is copied through unmodified.  j counts the pairs, so pair number j
uses the draws rs j and pts j. -/
def cruzar_pares (rs : ℕ → ℚ) (pts : ℕ → ℕ) (probabilidad_cruce : ℚ) :
    ℕ → List (List ℕ) → Except PyError (List (List ℕ))
  | _, [] => .ok []
  | _, [ultimo] => .ok [ultimo]
  | j, padre1 :: padre2 :: resto => do
      let hijos ← cruce_un_punto (rs j) (pts j) padre1 padre2 probabilidad_cruce
      let resto2 ← cruzar_pares rs pts probabilidad_cruce (j + 1) resto
      .ok (hijos.1 :: hijos.2 :: resto2)

/-- Model of aplicar_cruce_poblacion in Tarea2/AlgoritmoGenetico.py. -/
def aplicar_cruce_poblacion (rs : ℕ → ℚ) (pts : ℕ → ℕ)
    (poblacion : List (List ℕ)) (probabilidad_cruce : ℚ) :
    Except PyError (List (List ℕ)) :=
  cruzar_pares rs pts probabilidad_cruce 0 poblacion

/-- Model of mutar_cromosoma in Tarea2/AlgoritmoGenetico.py.  Note that this
version performs no validation of probabilidad_mutacion: it never raises. -/
def mutar_cromosoma (u : ℕ → ℚ) (cromosoma : List ℕ)
    (probabilidad_mutacion : ℚ) : List ℕ :=
  GA.mutar_bits u probabilidad_mutacion 0 cromosoma

/-- Model of aplicar_mutacion_poblacion in Tarea2/AlgoritmoGenetico.py:
mutate every chromosome; individual number j consumes the draws us j. -/
def aplicar_mutacion_poblacion (us : ℕ → ℕ → ℚ) (poblacion : List (List ℕ))
    (probabilidad_mutacion : ℚ) : List (List ℕ) :=
  (poblacion.enum).map (fun p => mutar_cromosoma (us p.1) p.2 probabilidad_mutacion)

/-- The expression max(indices, key=lambda i: aptitudes[i]) of
seleccion_torneo: the first index attaining the maximal aptitude among the
drawn indices.  max on an empty sequence raises ValueError; aptitudes[i]
raises IndexError when an index is out of range. -/
def mejor_de_indices (indices : List ℕ) (aptitudes : List ℚ) :
    Except PyError ℕ :=
  match indices with
  | [] => .error .valueError
  | i0 :: resto =>
      if (i0 :: resto).all (fun i => decide (i < aptitudes.length)) then
        .ok (resto.foldl
          (fun b x => if aptitudes.getD b 0 < aptitudes.getD x 0 then x else b) i0)
      else .error .indexError

/-- The loop of seleccion_torneo over the iteration counter list: each
iteration draws tamano_torneo indices (iteration it uses idxDraw it) and
copies the individual with the best aptitude among them. -/
def seleccion_torneo_go (idxDraw : ℕ → ℕ → ℕ) (poblacion : List (List ℕ))
    (aptitudes : List ℚ) (tamano_torneo : ℕ) :
    List ℕ → Except PyError (List (List ℕ))
  | [] => .ok []
  | it :: its => do
      let indices := (List.range tamano_torneo).map (idxDraw it)
      let mejor_indice ← mejor_de_indices indices aptitudes
      if mejor_indice < poblacion.length then do
        let resto ← seleccion_torneo_go idxDraw poblacion aptitudes tamano_torneo its
        .ok (poblacion.getD mejor_indice [] :: resto)
      else .error .indexError

/-- Model of seleccion_torneo in Tarea2/AlgoritmoGenetico.py.  idxDraw it j
is the outcome of the j-th random.randint(0, n - 1) draw of iteration it. -/
def seleccion_torneo (idxDraw : ℕ → ℕ → ℕ) (poblacion : List (List ℕ))
    (aptitudes : List ℚ) (tamano_torneo : ℕ) :
    Except PyError (List (List ℕ)) :=
  seleccion_torneo_go idxDraw poblacion aptitudes tamano_torneo
    (List.range poblacion.length)

end Tarea2

namespace Tarea3

/-- codificar in Tarea3/OptimizacionDimensionesCaja.py is byte-identical to
the one in Tarea2/AlgoritmoGenetico.py. -/
def codificar := Tarea2.codificar

/-- decodificar in Tarea3/OptimizacionDimensionesCaja.py is byte-identical to
the one in Tarea2/AlgoritmoGenetico.py. -/
def decodificar := Tarea2.decodificar

/-- The per-variable bounds (L_MIN, L_MAX), (W_MIN, W_MAX), (H_MIN, H_MAX). -/
def RANGOS : List (ℚ × ℚ) := [(10, 50), (10, 50), (5, 30)]

/-- The loop of decodificar_individuo over enumerate(rangos): variable i
occupies the chromosome slice [i * bits_por_var, (i + 1) * bits_por_var). -/
def decodificar_chunks (cromosoma : List ℕ) (bits_por_var : ℕ) :
    List (ℕ × (ℚ × ℚ)) → Except PyError (List ℚ)
  | [] => .ok []
  | (i, (a, b)) :: resto => do
      let x ← decodificar ((cromosoma.drop (i * bits_por_var)).take bits_por_var) a b
      let resto2 ← decodificar_chunks cromosoma bits_por_var resto
      .ok (x :: resto2)

/-- Model of decodificar_individuo in Tarea3/OptimizacionDimensionesCaja.py:
check the chromosome length, decode each variable slice, and unpack the
three decoded values (unpacking a list of the wrong length raises). -/
def decodificar_individuo (cromosoma : List ℕ) (rangos : List (ℚ × ℚ))
    (bits_por_var : ℕ) : Except PyError (ℚ × ℚ × ℚ) :=
  if cromosoma.length ≠ rangos.length * bits_por_var then .error .valueError
  else do
    let valores ← decodificar_chunks cromosoma bits_por_var rangos.enum
    match valores with
    | [length, width, height] => .ok (length, width, height)
    | _ => .error .valueError

/-- Model of volumen_caja. -/
def volumen_caja (length width height : ℚ) : ℚ :=
  length * width * height

/-- Model of aptitud in Tarea3/OptimizacionDimensionesCaja.py: the box
volume of the decoded chromosome (default arguments RANGOS and 10 bits). -/
def aptitud (cromosoma : List ℕ) : Except PyError ℚ := do
  let lwh ← decodificar_individuo cromosoma RANGOS 10
  .ok (volumen_caja lwh.1 lwh.2.1 lwh.2.2)

/-- Model of evaluar_poblacion: the comprehension
[aptitud(individuo) for individuo in poblacion]. -/
def evaluar_poblacion : List (List ℕ) → Except PyError (List ℚ)
  | [] => .ok []
  | individuo :: resto => do
      let a ← aptitud individuo
      let resto2 ← evaluar_poblacion resto
      .ok (a :: resto2)

/-- Model of probabilidades_seleccion in
Tarea3/OptimizacionDimensionesCaja.py: raise on an empty list, return the
uniform vector when the total aptitude is not positive, else the shares. -/
def probabilidades_seleccion (aptitudes : List ℚ) : Except PyError (List ℚ) :=
  if aptitudes = [] then .error .valueError
  else
    let total_aptitud := aptitudes.sum
    if total_aptitud ≤ 0 then
      .ok (List.replicate aptitudes.length ((1 : ℚ) / (aptitudes.length : ℚ)))
    else .ok (aptitudes.map (fun f_i => f_i / total_aptitud))

/-- The key order of sorted(range(n), key=lambda i: probabilidades[i],
reverse=True): i precedes j when probabilidades[i] >= probabilidades[j]. -/
def claveDesc (probabilidades : List ℚ) (i j : ℕ) : Prop :=
  probabilidades.getD j 0 ≤ probabilidades.getD i 0

instance (probabilidades : List ℚ) : DecidableRel (claveDesc probabilidades) :=
  fun i j => inferInstanceAs (Decidable (_ ≤ _))

instance (probabilidades : List ℚ) : IsTotal ℕ (claveDesc probabilidades) :=
  ⟨fun _ _ => le_total _ _⟩

instance (probabilidades : List ℚ) : IsTrans ℕ (claveDesc probabilidades) :=
  ⟨fun _ _ _ h1 h2 => le_trans h2 h1⟩

/-- The key order of sorted(range(n), key=lambda i: aptitudes[i]) used to
find the two worst slots: ascending aptitude. -/
def claveAsc (aptitudes : List ℚ) (i j : ℕ) : Prop :=
  aptitudes.getD i 0 ≤ aptitudes.getD j 0

instance (aptitudes : List ℚ) : DecidableRel (claveAsc aptitudes) :=
  fun i j => inferInstanceAs (Decidable (_ ≤ _))

instance (aptitudes : List ℚ) : IsTotal ℕ (claveAsc aptitudes) :=
  ⟨fun _ _ => le_total _ _⟩

instance (aptitudes : List ℚ) : IsTrans ℕ (claveAsc aptitudes) :=
  ⟨fun _ _ _ h1 h2 => le_trans h1 h2⟩

/-- Model of indices_mejores in Tarea3/OptimizacionDimensionesCaja.py:
validate k, stably sort the indices by descending probability (CPython
sorted with reverse=True is a stable sort, extensionally List.insertionSort
of the reflexive descending key order), and take the first k. -/
def indices_mejores (probabilidades : List ℚ) (k : ℕ) :
    Except PyError (List ℕ) :=
  if k = 0 then .error .valueError
  else if probabilidades.length < k then .error .valueError
  else
    let orden := List.insertionSort (claveDesc probabilidades)
      (List.range probabilidades.length)
    .ok (orden.take k)

/-- Model of seleccionar_mejores: the comprehension
[poblacion[i] for i in indices_mejores(probabilidades, k)]. -/
def seleccionar_mejores (poblacion : List (List ℕ)) (probabilidades : List ℚ)
    (k : ℕ) : Except PyError (List (List ℕ)) := do
  let idx ← indices_mejores probabilidades k
  if idx.all (fun i => decide (i < poblacion.length)) then
    .ok (idx.map (fun i => poblacion.getD i []))
  else .error .indexError

/-- Model of cruce_un_punto in Tarea3/OptimizacionDimensionesCaja.py: no
crossover probability; parents of length below 2 are copied unchanged;
punto is the random.randint(1, n_bits - 1) draw. -/
def cruce_un_punto (punto : ℕ) (padre1 padre2 : List ℕ) :
    Except PyError (List ℕ × List ℕ) :=
  if padre1.length ≠ padre2.length then .error .valueError
  else if padre1.length < 2 then .ok (padre1, padre2)
  else .ok (padre1.take punto ++ padre2.drop punto,
            padre2.take punto ++ padre1.drop punto)

/-- Model of mutar_cromosoma in Tarea3/OptimizacionDimensionesCaja.py: this
version validates p_mut and raises ValueError outside [0, 1]. -/
def mutar_cromosoma (u : ℕ → ℚ) (cromosoma : List ℕ) (p_mut : ℚ) :
    Except PyError (List ℕ) :=
  if ¬ (0 ≤ p_mut ∧ p_mut ≤ 1) then .error .valueError
  else .ok (GA.mutar_bits u p_mut 0 cromosoma)

/-- One iteration of the loop of evolucionar in
Tarea3/OptimizacionDimensionesCaja.py: evaluate, compute selection
probabilities, select the two best, cross them at punto, mutate both
children (u1 and u2 are the two mutation draw streams), find the two worst
slots by a stable ascending sort of the aptitudes, and overwrite those two
slots with the children. -/
def evolucionar_paso (punto : ℕ) (u1 u2 : ℕ → ℚ) (poblacion : List (List ℕ))
    (p_mut : ℚ) : Except PyError (List (List ℕ)) := do
  let aptitudes ← evaluar_poblacion poblacion
  let probs ← probabilidades_seleccion aptitudes
  let mejores ← seleccionar_mejores poblacion probs 2
  match mejores with
  | [padre1, padre2] => do
      let hijos ← cruce_un_punto punto padre1 padre2
      let hijo1 ← mutar_cromosoma u1 hijos.1 p_mut
      let hijo2 ← mutar_cromosoma u2 hijos.2 p_mut
      match (List.insertionSort (claveAsc aptitudes)
          (List.range aptitudes.length)).take 2 with
      | [p0, p1] => .ok ((poblacion.set p0 hijo1).set p1 hijo2)
      | _ => .error .indexError
  | _ => .error .valueError

end Tarea3

namespace Tarea4

/-- The per-gene bounds of BarraDeProteina.py. -/
def LIMITES : List (ℚ × ℚ) := [(10, 50), (20, 100), (5, 30), (0, 20)]

/-- Model of recortar: clamp valor into [minimo, maximo]. -/
def recortar (valor minimo maximo : ℚ) : ℚ :=
  max minimo (min maximo valor)

/-- The loop of mutar_individuo_real over enumerate(individuo): gene i
mutates when the draw u i is below the mutation probability, adding the
gauss(0, sigma) outcome g i and clamping into LIMITES[i] (an IndexError when
i is outside LIMITES); otherwise the gene is copied unchanged. -/
def mutar_genes (u g : ℕ → ℚ) (probabilidad_mutacion : ℚ) :
    ℕ → List ℚ → Except PyError (List ℚ)
  | _, [] => .ok []
  | i, valor :: resto => do
      let nuevo ←
        if u i < probabilidad_mutacion then
          match LIMITES[i]? with
          | some lim => Except.ok (recortar (valor + g i) lim.1 lim.2)
          | none => Except.error PyError.indexError
        else Except.ok valor
      let resto2 ← mutar_genes u g probabilidad_mutacion (i + 1) resto
      .ok (nuevo :: resto2)

/-- Model of mutar_individuo_real in Tarea4/BarraDeProteina.py.  The sigma
parameter only scales the gaussian distribution the draws g come from, so it
does not appear in the data path. -/
def mutar_individuo_real (u g : ℕ → ℚ) (individuo : List ℚ)
    (probabilidad_mutacion sigma : ℚ) : Except PyError (List ℚ) :=
  mutar_genes u g probabilidad_mutacion 0 individuo

end Tarea4

/-
Theorems.  First the arithmetic toolbox about pyRound and the bit loops,
then the claim theorems C1 to C10 with their witnesses and counterexamples.
-/

namespace GA

/-- Rounding to nearest moves a value by at most one half. -/
theorem abs_pyRound_sub_le (q : ℚ) : |(pyRound q : ℚ) - q| ≤ 1 / 2 := by
  have h0 : (0 : ℚ) ≤ q - ⌊q⌋ := by
    have := Int.floor_le q
    linarith
  have h1 : q - ⌊q⌋ < 1 := by
    have := Int.lt_floor_add_one q
    linarith
  unfold pyRound
  split_ifs with hlt hgt hev <;>
    · rw [abs_le]
      push_cast
      constructor <;> linarith

theorem two_mul_lor_one (k : ℕ) : 2 * k ||| 1 = 2 * k + 1 := by
  apply Nat.eq_of_testBit_eq
  intro i
  cases i with
  | zero =>
    simp only [Nat.testBit_zero, Nat.testBit_or]
    have h1 : (2 * k) % 2 = 0 := Nat.mul_mod_right 2 k
    have h2 : (2 * k + 1) % 2 = 1 := by omega
    simp [h1, h2]
  | succ j =>
    rw [Nat.testBit_or]
    have h1 : 2 * k / 2 = k := by omega
    have h2 : (2 * k + 1) / 2 = k := by omega
    have h3 : (1 : ℕ) / 2 = 0 := by norm_num
    simp only [Nat.testBit_succ, h1, h2, h3, Nat.zero_testBit, Bool.or_false]

theorem shift_or_step (acc b : ℕ) :
    (acc <<< 1) ||| (b &&& 1) = 2 * acc + b % 2 := by
  rw [Nat.and_one_is_mod, Nat.shiftLeft_eq]
  have hsq : acc * 2 ^ 1 = 2 * acc := by ring
  rw [hsq]
  rcases Nat.mod_two_eq_zero_or_one b with h | h <;> rw [h]
  · simp
  · exact two_mul_lor_one acc

theorem bitsOf_succ (k w : ℕ) :
    bitsOf k (w + 1) = ((k >>> w) &&& 1) :: bitsOf k w := by
  unfold bitsOf
  rw [List.range_succ, List.reverse_append]
  simp

theorem foldl_bitsOf (k : ℕ) :
    ∀ (w acc : ℕ),
      (bitsOf k w).foldl (fun a bit => (a <<< 1) ||| (bit &&& 1)) acc =
        acc * 2 ^ w + k % 2 ^ w := by
  intro w
  induction w with
  | zero => intro acc; simp [bitsOf, Nat.mod_one]
  | succ m ih =>
    intro acc
    rw [bitsOf_succ, List.foldl_cons, ih]
    rw [shift_or_step]
    have hb2 : ((k >>> m) &&& 1) % 2 = k / 2 ^ m % 2 := by
      rw [Nat.and_one_is_mod, Nat.shiftRight_eq_div_pow]
      omega
    rw [hb2]
    have hmod : k % 2 ^ (m + 1) = k % 2 ^ m + 2 ^ m * (k / 2 ^ m % 2) := by
      rw [pow_succ]
      exact Nat.mod_mul
    rw [hmod]
    ring

/-- Decoding the encoded bits of k recovers k modulo 2 ^ w. -/
theorem intOfBits_bitsOf (k w : ℕ) : intOfBits (bitsOf k w) = k % 2 ^ w := by
  unfold intOfBits
  rw [foldl_bitsOf]
  simp

theorem intOfBits_bitsOf_of_lt {k w : ℕ} (h : k < 2 ^ w) :
    intOfBits (bitsOf k w) = k := by
  rw [intOfBits_bitsOf, Nat.mod_eq_of_lt h]

theorem bitsOf_length (k w : ℕ) : (bitsOf k w).length = w := by
  simp [bitsOf]

theorem foldl_replicate_zero :
    ∀ (w acc : ℕ),
      (List.replicate w 0).foldl (fun a bit => (a <<< 1) ||| (bit &&& 1)) acc =
        acc * 2 ^ w := by
  intro w
  induction w with
  | zero => intro acc; simp
  | succ m ih =>
    intro acc
    rw [List.replicate_succ, List.foldl_cons, ih]
    rw [shift_or_step]
    have h0 : (0 : ℕ) % 2 = 0 := rfl
    rw [h0]
    ring

theorem intOfBits_replicate_zero (w : ℕ) :
    intOfBits (List.replicate w 0) = 0 := by
  unfold intOfBits
  rw [foldl_replicate_zero]
  simp

theorem foldl_replicate_one :
    ∀ (w acc : ℕ),
      (List.replicate w 1).foldl (fun a bit => (a <<< 1) ||| (bit &&& 1)) acc =
        acc * 2 ^ w + (2 ^ w - 1) := by
  intro w
  induction w with
  | zero => intro acc; simp
  | succ m ih =>
    intro acc
    rw [List.replicate_succ, List.foldl_cons, ih]
    rw [shift_or_step]
    have h2 : (2 : ℕ) ^ (m + 1) = 2 ^ m * 2 := pow_succ 2 m
    have h3 : (1 : ℕ) % 2 = 1 := by norm_num
    rw [h3]
    obtain ⟨t, ht⟩ : ∃ t, 2 ^ m = t + 1 :=
      ⟨2 ^ m - 1, by have := @Nat.one_le_two_pow m; omega⟩
    rw [h2, ht]
    have e1 : t + 1 - 1 = t := by omega
    have e2 : (t + 1) * 2 - 1 = 2 * t + 1 := by omega
    rw [e1, e2]
    ring

theorem intOfBits_replicate_one (w : ℕ) :
    intOfBits (List.replicate w 1) = 2 ^ w - 1 := by
  unfold intOfBits
  rw [foldl_replicate_one]
  simp

/-- The reconstructed integer of any bit list is below 2 ^ length. -/
theorem foldl_intOfBits_lt :
    ∀ (l : List ℕ) (acc : ℕ),
      l.foldl (fun a bit => (a <<< 1) ||| (bit &&& 1)) acc <
        (acc + 1) * 2 ^ l.length := by
  intro l
  induction l with
  | nil => intro acc; simp
  | cons b t ih =>
    intro acc
    rw [List.foldl_cons, shift_or_step]
    have h := ih (2 * acc + b % 2)
    have hb : b % 2 < 2 := Nat.mod_lt b (by norm_num)
    have hlen : (b :: t).length = t.length + 1 := rfl
    rw [hlen, pow_succ]
    calc t.foldl (fun a bit => (a <<< 1) ||| (bit &&& 1)) (2 * acc + b % 2)
        < (2 * acc + b % 2 + 1) * 2 ^ t.length := h
      _ ≤ (acc + 1) * (2 ^ t.length * 2) := by
          nlinarith [Nat.pos_pow_of_pos t.length (show 0 < 2 by norm_num)]

theorem intOfBits_lt (l : List ℕ) : intOfBits l < 2 ^ l.length := by
  have := foldl_intOfBits_lt l 0
  simpa [intOfBits] using this

end GA

/-- Unfolding of decodificar on a nonempty bit list with valid bounds. -/
theorem decodificar_eq_ok (bits : List ℕ) (a b : ℚ) (hab : a < b)
    (hne : bits ≠ []) :
    Tarea2.decodificar bits a b =
      .ok (a + ((GA.intOfBits bits : ℚ) /
        ((((1 <<< bits.length) - 1 : ℕ) : ℚ))) * (b - a)) := by
  have hlen : 1 ≤ bits.length := List.length_pos.mpr hne
  have h2 : 2 ≤ 2 ^ bits.length := by
    calc (2 : ℕ) = 2 ^ 1 := by norm_num
    _ ≤ 2 ^ bits.length := Nat.pow_le_pow_right (by norm_num) hlen
  have hM : ¬ ((1 <<< bits.length) - 1 = 0) := by
    rw [Nat.one_shiftLeft]
    omega
  simp only [Tarea2.decodificar]
  rw [if_neg (not_le.mpr hab), if_neg hM]

/-- Claim C5: for every bound pair with min < max and every width w >= 1,
decodificar applied to the all-zero bit sequence of length w returns exactly
min, and applied to the all-one sequence returns exactly max; this holds for
the byte-identical decodificar of Tarea2 and Tarea3. -/
theorem C5_boundary_exactness (a b : ℚ) (w : ℕ) (hab : a < b) (hw : 1 ≤ w) :
    Tarea2.decodificar (List.replicate w 0) a b = .ok a ∧
    Tarea2.decodificar (List.replicate w 1) a b = .ok b ∧
    Tarea3.decodificar (List.replicate w 0) a b = .ok a ∧
    Tarea3.decodificar (List.replicate w 1) a b = .ok b := by
  have hne0 : (List.replicate w 0 : List ℕ) ≠ [] := by
    intro h
    have := congrArg List.length h
    simp at this
    omega
  have hne1 : (List.replicate w 1 : List ℕ) ≠ [] := by
    intro h
    have := congrArg List.length h
    simp at this
    omega
  have h2 : 2 ≤ 2 ^ w := by
    calc (2 : ℕ) = 2 ^ 1 := by norm_num
    _ ≤ 2 ^ w := Nat.pow_le_pow_right (by norm_num) hw
  have e0 := decodificar_eq_ok (List.replicate w 0) a b hab hne0
  have e1 := decodificar_eq_ok (List.replicate w 1) a b hab hne1
  rw [GA.intOfBits_replicate_zero] at e0
  rw [GA.intOfBits_replicate_one] at e1
  simp only [List.length_replicate] at e0 e1
  have hz : Tarea2.decodificar (List.replicate w 0) a b = .ok a := by
    rw [e0]
    norm_num
  have ho : Tarea2.decodificar (List.replicate w 1) a b = .ok b := by
    rw [e1]
    have hMnz : ((((1 <<< w) - 1 : ℕ)) : ℚ) ≠ 0 := by
      rw [Nat.one_shiftLeft]
      rw [Nat.cast_ne_zero]
      omega
    rw [Nat.one_shiftLeft]
    rw [Nat.one_shiftLeft] at hMnz
    rw [div_self hMnz]
    norm_num
  exact ⟨hz, ho, hz, ho⟩

/-- Witness for C5 at a = 0, b = 1, w = 3. -/
theorem C5_boundary_exactness_witness :
    Tarea2.decodificar (List.replicate 3 0) 0 1 = .ok 0 ∧
    Tarea2.decodificar (List.replicate 3 1) 0 1 = .ok 1 ∧
    Tarea3.decodificar (List.replicate 3 0) 0 1 = .ok 0 ∧
    Tarea3.decodificar (List.replicate 3 1) 0 1 = .ok 1 :=
  C5_boundary_exactness 0 1 3 (by norm_num) (by norm_num)

/-- Counterexample to claim C8 as stated: with the valid bound pair
min = 0 < 1 = max, decodificar still fails (ZeroDivisionError) on the empty
bit sequence, so it is not the case that neither function ever fails when
min < max. -/
theorem C8_counterexample :
    (0 : ℚ) < 1 ∧
      Tarea2.decodificar ([] : List ℕ) 0 1 = .error .zeroDivisionError := by
  constructor
  · norm_num
  · rfl

/-- Claim C8 (amended): for min >= max both codificar and decodificar raise
ValueError on every input; for min < max codificar never fails, and
decodificar fails only on the empty bit sequence, where the division
k / max_int raises ZeroDivisionError. -/
theorem C8_invalid_bound (a b x : ℚ) (bits : List ℕ) (w : ℕ) :
    (b ≤ a →
      Tarea2.codificar x a b w = .error .valueError ∧
      Tarea2.decodificar bits a b = .error .valueError ∧
      Tarea3.codificar x a b w = .error .valueError ∧
      Tarea3.decodificar bits a b = .error .valueError) ∧
    (a < b →
      (∃ bs, Tarea2.codificar x a b w = .ok bs) ∧
      (bits ≠ [] → ∃ v, Tarea2.decodificar bits a b = .ok v) ∧
      (bits = [] → Tarea2.decodificar bits a b = .error .zeroDivisionError)) := by
  constructor
  · intro h
    have hc : Tarea2.codificar x a b w = .error .valueError := by
      simp only [Tarea2.codificar]
      rw [if_pos h]
    have hd : Tarea2.decodificar bits a b = .error .valueError := by
      simp only [Tarea2.decodificar]
      rw [if_pos h]
    exact ⟨hc, hd, hc, hd⟩
  · intro h
    refine ⟨?_, ?_, ?_⟩
    · simp only [Tarea2.codificar]
      rw [if_neg (not_le.mpr h)]
      exact ⟨_, rfl⟩
    · intro hne
      rw [decodificar_eq_ok bits a b h hne]
      exact ⟨_, rfl⟩
    · intro hnil
      subst hnil
      simp only [Tarea2.decodificar]
      rw [if_neg (not_le.mpr h)]
      rfl

/-- Witness for C8 at concrete bounds (1, 0) for the failing half and
(0, 1) for the succeeding half. -/
theorem C8_invalid_bound_witness :
    (Tarea2.codificar 0 1 0 4 = .error .valueError ∧
     Tarea2.decodificar [0, 1] 1 0 = .error .valueError ∧
     Tarea3.codificar 0 1 0 4 = .error .valueError ∧
     Tarea3.decodificar [0, 1] 1 0 = .error .valueError) ∧
    ((∃ bs, Tarea2.codificar 0 0 1 4 = .ok bs) ∧
     ([0, 1] ≠ ([] : List ℕ) → ∃ v, Tarea2.decodificar [0, 1] 0 1 = .ok v) ∧
     ([0, 1] = ([] : List ℕ) →
        Tarea2.decodificar [0, 1] 0 1 = .error .zeroDivisionError)) :=
  ⟨(C8_invalid_bound 1 0 0 [0, 1] 4).1 (by norm_num),
   (C8_invalid_bound 0 1 0 [0, 1] 4).2 (by norm_num)⟩

/-- Claim C2: for min < max, width w >= 1 and v already inside [min, max],
decodificar after codificar returns a value within half a quantization step
(max - min) / (2 ^ w - 1) of v. -/
theorem C2_roundtrip_resolution (v a b : ℚ) (w : ℕ) (hab : a < b) (hw : 1 ≤ w)
    (hv1 : a ≤ v) (hv2 : v ≤ b) :
    ∃ bits x, Tarea2.codificar v a b w = .ok bits ∧
      Tarea2.decodificar bits a b = .ok x ∧
      |x - v| ≤ (b - a) / (2 * ((2 : ℚ) ^ w - 1)) := by
  have hba : (0 : ℚ) < b - a := by linarith
  have h2w : 1 ≤ 2 ^ w := @Nat.one_le_two_pow w
  have h2w2 : 2 ≤ 2 ^ w := by
    calc (2 : ℕ) = 2 ^ 1 := by norm_num
    _ ≤ 2 ^ w := Nat.pow_le_pow_right (by norm_num) hw
  set M : ℕ := 2 ^ w - 1 with hMdef
  have hM1 : 1 ≤ M := by omega
  have hMQeq : ((M : ℕ) : ℚ) = (2 : ℚ) ^ w - 1 := by
    rw [hMdef, Nat.cast_sub h2w]
    push_cast
    ring
  have hMQpos : (0 : ℚ) < (M : ℚ) := by exact_mod_cast hM1
  set t : ℚ := (v - a) / (b - a) * (M : ℚ) with htdef
  have hratio0 : 0 ≤ (v - a) / (b - a) := div_nonneg (by linarith) (le_of_lt hba)
  have hratio1 : (v - a) / (b - a) ≤ 1 := by
    rw [div_le_one hba]
    linarith
  have ht0 : 0 ≤ t := mul_nonneg hratio0 (le_of_lt hMQpos)
  have htM : t ≤ (M : ℚ) := by
    calc t ≤ 1 * (M : ℚ) := mul_le_mul_of_nonneg_right hratio1 (le_of_lt hMQpos)
    _ = (M : ℚ) := one_mul _
  set k : ℤ := GA.pyRound t with hkdef
  have habs : |(k : ℚ) - t| ≤ 1 / 2 := GA.abs_pyRound_sub_le t
  have habs1 := (abs_le.mp habs).1
  have habs2 := (abs_le.mp habs).2
  have hk0 : 0 ≤ k := by
    have hq : (-1 : ℚ) < (k : ℚ) := by linarith
    have h' : (-1 : ℤ) < k := by exact_mod_cast hq
    omega
  have hkM : k ≤ (M : ℤ) := by
    have hq : (k : ℚ) < (M : ℚ) + 1 := by linarith
    have h' : k < (M : ℤ) + 1 := by exact_mod_cast hq
    omega
  have hMi : (((1 <<< w : ℕ) : ℤ) - 1) = (M : ℤ) := by
    rw [Nat.one_shiftLeft, hMdef]
    push_cast [Nat.cast_sub h2w]
    ring
  have hx2 : (if v < a then a else if b < v then b else v) = v := by
    rw [if_neg (not_lt.mpr hv1), if_neg (not_lt.mpr hv2)]
  have hclamp : max 0 (min (M : ℤ) k) = k := by
    rw [min_eq_right hkM, max_eq_right hk0]
  have hcod : Tarea2.codificar v a b w = .ok (GA.bitsOf k.toNat w) := by
    simp only [Tarea2.codificar]
    rw [if_neg (not_le.mpr hab)]
    rw [hx2, hMi, Int.cast_natCast, ← htdef, ← hkdef, hclamp]
  have hkNat : k.toNat < 2 ^ w := by omega
  have hbits_ne : GA.bitsOf k.toNat w ≠ [] := by
    intro h
    have hlen := congrArg List.length h
    rw [GA.bitsOf_length] at hlen
    simp at hlen
    omega
  have hdec := decodificar_eq_ok (GA.bitsOf k.toNat w) a b hab hbits_ne
  rw [GA.bitsOf_length, GA.intOfBits_bitsOf_of_lt hkNat] at hdec
  have hshift : ((1 <<< w) - 1 : ℕ) = M := by rw [Nat.one_shiftLeft, hMdef]
  rw [hshift] at hdec
  have hcastk : ((k.toNat : ℕ) : ℚ) = (k : ℚ) := by
    have h' := Int.toNat_of_nonneg hk0
    exact_mod_cast congrArg (fun z : ℤ => (z : ℚ)) h'
  rw [hcastk] at hdec
  refine ⟨GA.bitsOf k.toNat w, a + ((k : ℚ) / (M : ℚ)) * (b - a), hcod, hdec, ?_⟩
  have hMne : (M : ℚ) ≠ 0 := ne_of_gt hMQpos
  have hv : v = a + (t / (M : ℚ)) * (b - a) := by
    rw [htdef, mul_div_cancel_right₀ _ hMne, div_mul_cancel₀ _ (ne_of_gt hba)]
    ring
  have hint : a + ((k : ℚ) / (M : ℚ)) * (b - a) - v =
      ((k : ℚ) - t) * ((b - a) / (M : ℚ)) := by
    rw [hv]
    ring
  rw [hint, abs_mul]
  have habs3 : |(b - a) / (M : ℚ)| = (b - a) / (M : ℚ) :=
    abs_of_pos (by positivity)
  rw [habs3, ← hMQeq]
  have key : (0 : ℚ) ≤ (1 / 2 - |(k : ℚ) - t|) * ((b - a) / (M : ℚ)) :=
    mul_nonneg (by linarith) (by positivity)
  have hexp : (b - a) / (2 * (M : ℚ)) = (1 / 2) * ((b - a) / (M : ℚ)) := by
    field_simp
  rw [hexp]
  nlinarith [key]

/-- Witness for C2 at v = 1/3 in [0, 1] with w = 2. -/
theorem C2_roundtrip_resolution_witness :
    ∃ bits x, Tarea2.codificar (1 / 3) 0 1 2 = .ok bits ∧
      Tarea2.decodificar bits 0 1 = .ok x ∧
      |x - 1 / 3| ≤ (1 - 0) / (2 * ((2 : ℚ) ^ 2 - 1)) :=
  C2_roundtrip_resolution (1 / 3) 0 1 2 (by norm_num) (by norm_num)
    (by norm_num) (by norm_num)

theorem except_bind_ok {α β : Type} (a : α) (f : α → Except PyError β) :
    (Except.ok a >>= f) = f a := rfl

theorem except_bind_error {α β : Type} (e : PyError)
    (f : α → Except PyError β) :
    ((Except.error e : Except PyError α) >>= f) = .error e := rfl

/-- Unfolding of probabilidades_seleccion when the total aptitude is
positive. -/
theorem probabilidades_ok_of_pos (aptitudes : List ℚ)
    (h : 0 < aptitudes.sum) :
    Tarea3.probabilidades_seleccion aptitudes =
      .ok (aptitudes.map (fun f_i => f_i / aptitudes.sum)) := by
  have hne : aptitudes ≠ [] := by
    intro hnil
    rw [hnil] at h
    simp at h
  simp only [Tarea3.probabilidades_seleccion]
  rw [if_neg hne, if_neg (not_le.mpr h)]

/-- Claim C10 (implicit): probabilidades_seleccion raises on the empty list,
returns the uniform vector of length n when the total aptitude is not
positive, and returns the aptitude shares when the total is positive. -/
theorem C10_probabilidades_nonpositive_uniform (aptitudes : List ℚ) :
    (Tarea3.probabilidades_seleccion [] = .error .valueError) ∧
    (aptitudes ≠ [] → aptitudes.sum ≤ 0 →
      Tarea3.probabilidades_seleccion aptitudes =
        .ok (List.replicate aptitudes.length
          ((1 : ℚ) / (aptitudes.length : ℚ)))) ∧
    (0 < aptitudes.sum →
      Tarea3.probabilidades_seleccion aptitudes =
        .ok (aptitudes.map (fun f_i => f_i / aptitudes.sum))) := by
  refine ⟨rfl, ?_, fun h => probabilidades_ok_of_pos aptitudes h⟩
  intro hne hsum
  simp only [Tarea3.probabilidades_seleccion]
  rw [if_neg hne, if_pos hsum]

/-- Witness for C10: a negative-sum list gets the uniform vector, a
positive-sum list gets its shares. -/
theorem C10_probabilidades_nonpositive_uniform_witness :
    Tarea3.probabilidades_seleccion [-1, -2] = .ok [1 / 2, 1 / 2] ∧
    Tarea3.probabilidades_seleccion [1, 3] = .ok [1 / 4, 3 / 4] := by
  have h1 := (C10_probabilidades_nonpositive_uniform [-1, -2]).2.1
    (by simp) (by norm_num [List.sum_cons])
  have h2 := (C10_probabilidades_nonpositive_uniform [1, 3]).2.2
    (by norm_num [List.sum_cons])
  constructor
  · rw [h1]
    norm_num [List.replicate_succ]
  · rw [h2]
    norm_num [List.sum_cons]

/-- Permutation and sortedness facts about the stable sort of range n. -/
theorem insertionSort_range_facts (r : ℕ → ℕ → Prop) [DecidableRel r]
    [IsTotal ℕ r] [IsTrans ℕ r] (n : ℕ) :
    (List.insertionSort r (List.range n)).length = n ∧
    (List.insertionSort r (List.range n)).Nodup ∧
    (∀ i ∈ List.insertionSort r (List.range n), i < n) ∧
    List.Pairwise r (List.insertionSort r (List.range n)) ∧
    (∀ i < n, i ∈ List.insertionSort r (List.range n)) := by
  have hperm := List.perm_insertionSort r (List.range n)
  refine ⟨?_, ?_, ?_, ?_, ?_⟩
  · rw [hperm.length_eq, List.length_range]
  · exact hperm.symm.nodup (List.nodup_range n)
  · intro i hi
    rw [← List.mem_range]
    exact hperm.mem_iff.mp hi
  · exact List.sorted_insertionSort r (List.range n)
  · intro i hi
    exact hperm.mem_iff.mpr (List.mem_range.mpr hi)

/-- In a pairwise-sorted list, every element of the prefix take m relates to
every element of the suffix drop m. -/
theorem sorted_take_le {r : ℕ → ℕ → Prop} {l : List ℕ} (m : ℕ)
    (hp : List.Pairwise r l) :
    ∀ i ∈ l.take m, ∀ j ∈ l.drop m, r i j := by
  have hsplit : List.Pairwise r (l.take m ++ l.drop m) := by
    rw [List.take_append_drop]
    exact hp
  exact (List.pairwise_append.mp hsplit).2.2

theorem probs_getD_map (aptitudes : List ℚ) (S : ℚ) (i : ℕ)
    (hi : i < aptitudes.length) :
    (aptitudes.map (fun f_i => f_i / S)).getD i 0 = aptitudes.getD i 0 / S := by
  have hi2 : i < (aptitudes.map (fun f_i => f_i / S)).length := by
    rw [List.length_map]
    exact hi
  rw [List.getD_eq_getElem _ _ hi2, List.getD_eq_getElem _ _ hi,
    List.getElem_map]

/-- Counterexample to claim C3 as stated: with fitness list [-1, 5, -10]
(total not positive), probabilidades_seleccion returns the uniform vector,
so seleccionar_mejores with m = 2 returns the individuals at indices 0 and 1
in that order; the first returned individual has fitness -1 and the second
has fitness 5, so the result is not the top-2 ordered by descending fitness
(which would need the first fitness to be the largest). -/
theorem C3_counterexample :
    Tarea3.probabilidades_seleccion [-1, 5, -10] =
      .ok [1 / 3, 1 / 3, 1 / 3] ∧
    Tarea3.seleccionar_mejores [[0], [1], [2]] [1 / 3, 1 / 3, 1 / 3] 2 =
      .ok [[0], [1]] ∧
    ¬ ([(-1 : ℚ), 5, -10].getD 1 0 ≤ [(-1 : ℚ), 5, -10].getD 0 0) := by
  refine ⟨by decide, by decide, by norm_num⟩

/-- Claim C3 (amended): provided the fitness total is positive (so that the
derived probabilities are order-isomorphic to the fitness values),
seleccionar_mejores applied to the probability vector of a fitness list F
returns exactly m individuals: the indices idx are pairwise distinct, in
range, ordered by descending fitness, and every unselected index has
fitness at most that of every selected one.  The function takes no random
stream, so the result is deterministic by construction. -/
theorem C3_truncation_selection (poblacion : List (List ℕ))
    (aptitudes : List ℚ) (m : ℕ) (hlen : aptitudes.length = poblacion.length)
    (hm1 : 1 ≤ m) (hm2 : m ≤ poblacion.length) (hsum : 0 < aptitudes.sum) :
    ∃ probs idx,
      Tarea3.probabilidades_seleccion aptitudes = .ok probs ∧
      Tarea3.indices_mejores probs m = .ok idx ∧
      Tarea3.seleccionar_mejores poblacion probs m =
        .ok (idx.map (fun i => poblacion.getD i [])) ∧
      idx.length = m ∧ idx.Nodup ∧ (∀ i ∈ idx, i < poblacion.length) ∧
      idx.Chain' (fun i j => aptitudes.getD j 0 ≤ aptitudes.getD i 0) ∧
      (∀ j < poblacion.length, j ∉ idx → ∀ i ∈ idx,
        aptitudes.getD j 0 ≤ aptitudes.getD i 0) := by
  set S := aptitudes.sum with hSdef
  set probs := aptitudes.map (fun f_i => f_i / S) with hprobsdef
  have hplen : probs.length = aptitudes.length := by
    rw [hprobsdef, List.length_map]
  have hprobs_ok : Tarea3.probabilidades_seleccion aptitudes = .ok probs :=
    probabilidades_ok_of_pos aptitudes hsum
  -- the descending probability order coincides with descending aptitude
  have hkey : ∀ i j, i < aptitudes.length → j < aptitudes.length →
      (Tarea3.claveDesc probs i j ↔ aptitudes.getD j 0 ≤ aptitudes.getD i 0) := by
    intro i j hi hj
    unfold Tarea3.claveDesc
    rw [hprobsdef, probs_getD_map _ _ _ hi, probs_getD_map _ _ _ hj]
    exact div_le_div_right hsum
  obtain ⟨hslen, hsnodup, hsmem, hspair, hsmem2⟩ :=
    insertionSort_range_facts (Tarea3.claveDesc probs) probs.length
  set orden := List.insertionSort (Tarea3.claveDesc probs)
    (List.range probs.length) with hordendef
  set idx := orden.take m with hidxdef
  have hmem_lt : ∀ i ∈ idx, i < poblacion.length := by
    intro i hi
    have := hsmem i (List.mem_of_mem_take hi)
    omega
  have hidx_ok : Tarea3.indices_mejores probs m = .ok idx := by
    simp only [Tarea3.indices_mejores]
    rw [if_neg (by omega : ¬ m = 0), if_neg (by omega : ¬ probs.length < m)]
  have hsel_ok : Tarea3.seleccionar_mejores poblacion probs m =
      .ok (idx.map (fun i => poblacion.getD i [])) := by
    simp only [Tarea3.seleccionar_mejores]
    rw [hidx_ok, except_bind_ok]
    rw [if_pos]
    rw [List.all_eq_true]
    intro i hi
    exact decide_eq_true (hmem_lt i hi)
  refine ⟨probs, idx, hprobs_ok, hidx_ok, hsel_ok, ?_, ?_, hmem_lt, ?_, ?_⟩
  · rw [hidxdef, List.length_take, hslen]
    omega
  · exact (List.take_sublist m orden).nodup hsnodup
  · have hpair_idx : List.Pairwise (Tarea3.claveDesc probs) idx :=
      List.Pairwise.sublist (List.take_sublist m orden) hspair
    have hpair_apt : List.Pairwise
        (fun i j => aptitudes.getD j 0 ≤ aptitudes.getD i 0) idx := by
      refine hpair_idx.imp_of_mem ?_
      intro a b ha hb hr
      have ha2 := hmem_lt a ha
      have hb2 := hmem_lt b hb
      exact (hkey a b (by omega) (by omega)).mp hr
    exact hpair_apt.chain'
  · intro j hj hjnot i hi
    have hj_orden : j ∈ orden := hsmem2 j (by omega)
    have hj_drop : j ∈ orden.drop m := by
      have hsplit : j ∈ orden.take m ++ orden.drop m := by
        rw [List.take_append_drop]
        exact hj_orden
      rcases List.mem_append.mp hsplit with h | h
      · exact absurd h hjnot
      · exact h
    have hr : Tarea3.claveDesc probs i j :=
      sorted_take_le m hspair i hi j hj_drop
    have hjlt := hsmem j ((List.drop_sublist m orden).subset hj_drop)
    exact (hkey i j (by have := hmem_lt i hi; omega) (by omega)).mp hr

/-- Witness for C3 at a two-individual population with distinct positive
fitness values and m = 1. -/
theorem C3_truncation_selection_witness :
    ∃ probs idx,
      Tarea3.probabilidades_seleccion [1, 2] = .ok probs ∧
      Tarea3.indices_mejores probs 1 = .ok idx ∧
      Tarea3.seleccionar_mejores [[0], [1]] probs 1 =
        .ok (idx.map (fun i => [[0], [1]].getD i [])) ∧
      idx.length = 1 ∧ idx.Nodup ∧ (∀ i ∈ idx, i < 2) ∧
      idx.Chain' (fun i j => [(1 : ℚ), 2].getD j 0 ≤ [(1 : ℚ), 2].getD i 0) ∧
      (∀ j < 2, j ∉ idx → ∀ i ∈ idx,
        [(1 : ℚ), 2].getD j 0 ≤ [(1 : ℚ), 2].getD i 0) := by
  have h := C3_truncation_selection [[0], [1]] [1, 2] 1 (by simp)
    (by norm_num) (by simp) (by norm_num [List.sum_cons])
  simpa using h

/-- Counterexample to claim C4 as stated: the Tarea2 mutar_cromosoma does
not validate the mutation probability; with pMut = 2 (outside [0, 1]) it
produces a chromosome (every draw in [0, 1) is below 2, so every bit flips)
instead of failing. -/
theorem C4_counterexample :
    Tarea2.mutar_cromosoma (fun _ => (1 : ℚ) / 2) [0, 1] 2 = [1, 0] := rfl

/-- Claim C4 (amended): the Tarea3 mutar_cromosoma rejects every mutation
probability outside [0, 1] with ValueError, for every chromosome and every
draw stream; the Tarea2 version performs no such validation (see the
counterexample). -/
theorem C4_invalid_mutation_probability (u : ℕ → ℚ) (cromosoma : List ℕ)
    (p_mut : ℚ) (h : p_mut < 0 ∨ 1 < p_mut) :
    Tarea3.mutar_cromosoma u cromosoma p_mut = .error .valueError := by
  simp only [Tarea3.mutar_cromosoma]
  rw [if_pos]
  rcases h with h | h
  · exact fun hc => absurd hc.1 (not_le.mpr h)
  · exact fun hc => absurd hc.2 (not_le.mpr h)

/-- Witness for C4 at p_mut = 2. -/
theorem C4_invalid_mutation_probability_witness :
    Tarea3.mutar_cromosoma (fun _ => (1 : ℚ) / 2) [0, 1] 2 =
      .error .valueError :=
  C4_invalid_mutation_probability (fun _ => (1 : ℚ) / 2) [0, 1] 2
    (Or.inr (by norm_num))

/-- Claim C6: one-point crossover on equal-length parents of length n >= 2
at a point p in 1..n-1, when it fires, yields childA = A[0:p] + B[p:] and
childB = B[0:p] + A[p:], both of length n; parents of unequal length raise
a length-mismatch ValueError; and the concrete scenario crossover of
[0,0,0,0] and [1,1,1,1] at point 2 gives ([0,0,1,1],[1,1,0,0]).  Both the
Tarea2 version (with crossover probability; it fires when the draw r is
below probabilidad_cruce) and the Tarea3 version (always fires) agree. -/
theorem C6_one_point_crossover (padre1 padre2 : List ℕ)
    (r probabilidad_cruce : ℚ) (punto : ℕ) :
    (padre1.length = padre2.length → 2 ≤ padre1.length → 1 ≤ punto →
      punto ≤ padre1.length - 1 →
      (r < probabilidad_cruce →
        Tarea2.cruce_un_punto r punto padre1 padre2 probabilidad_cruce =
          .ok (padre1.take punto ++ padre2.drop punto,
               padre2.take punto ++ padre1.drop punto)) ∧
      Tarea3.cruce_un_punto punto padre1 padre2 =
        .ok (padre1.take punto ++ padre2.drop punto,
             padre2.take punto ++ padre1.drop punto) ∧
      (padre1.take punto ++ padre2.drop punto).length = padre1.length ∧
      (padre2.take punto ++ padre1.drop punto).length = padre1.length) ∧
    (padre1.length ≠ padre2.length →
      Tarea2.cruce_un_punto r punto padre1 padre2 probabilidad_cruce =
        .error .valueError ∧
      Tarea3.cruce_un_punto punto padre1 padre2 = .error .valueError) ∧
    Tarea3.cruce_un_punto 2 [0, 0, 0, 0] [1, 1, 1, 1] =
      .ok ([0, 0, 1, 1], [1, 1, 0, 0]) := by
  refine ⟨?_, ?_, by decide⟩
  · intro hlen h2 hp1 hp2
    have hnot : ¬ padre1.length ≠ padre2.length := by omega
    refine ⟨?_, ?_, ?_, ?_⟩
    · intro hr
      simp only [Tarea2.cruce_un_punto]
      rw [if_neg hnot, if_neg (not_le.mpr hr), if_neg (by omega)]
    · simp only [Tarea3.cruce_un_punto]
      rw [if_neg hnot, if_neg (by omega)]
    · rw [List.length_append, List.length_take, List.length_drop]
      omega
    · rw [List.length_append, List.length_take, List.length_drop]
      omega
  · intro hne
    constructor
    · simp only [Tarea2.cruce_un_punto]
      rw [if_pos hne]
    · simp only [Tarea3.cruce_un_punto]
      rw [if_pos hne]

/-- Witness for C6: the firing case at the concrete scenario and the
length-mismatch case at parents of lengths 4 and 3. -/
theorem C6_one_point_crossover_witness :
    (Tarea2.cruce_un_punto 0 2 [0, 0, 0, 0] [1, 1, 1, 1] (7 / 10) =
        .ok ([0, 0, 1, 1], [1, 1, 0, 0]) ∧
      Tarea3.cruce_un_punto 2 [0, 0, 0, 0] [1, 1, 1, 1] =
        .ok ([0, 0, 1, 1], [1, 1, 0, 0])) ∧
    (Tarea2.cruce_un_punto 0 2 [0, 0, 0, 0] [1, 1, 1] (7 / 10) =
        .error .valueError ∧
      Tarea3.cruce_un_punto 2 [0, 0, 0, 0] [1, 1, 1] = .error .valueError) := by
  have h1 := (C6_one_point_crossover [0, 0, 0, 0] [1, 1, 1, 1] 0 (7 / 10) 2).1
    (by decide) (by decide) (by decide) (by decide)
  have h2 := (C6_one_point_crossover [0, 0, 0, 0] [1, 1, 1] 0 (7 / 10) 2).2.1
    (by decide)
  exact ⟨⟨h1.1 (by norm_num), h1.2.1⟩, h2⟩

theorem limites_lower_le_upper :
    ∀ lim ∈ Tarea4.LIMITES, lim.1 ≤ lim.2 := by decide

theorem recortar_mem {lo hi : ℚ} (z : ℚ) (h : lo ≤ hi) :
    lo ≤ Tarea4.recortar z lo hi ∧ Tarea4.recortar z lo hi ≤ hi := by
  unfold Tarea4.recortar
  constructor
  · exact le_max_left _ _
  · exact max_le h (min_le_left _ _)

/-- Structural specification of the mutation loop: the output has the same
length as the input and each output gene is either the unchanged input gene
or the clamped mutated value inside its own bound. -/
theorem mutar_genes_spec (u g : ℕ → ℚ) (p : ℚ) :
    ∀ (l : List ℚ) (s : ℕ) (res : List ℚ),
      Tarea4.mutar_genes u g p s l = .ok res →
      res.length = l.length ∧
      ∀ i < res.length,
        res.getD i 0 = l.getD i 0 ∨
        ∃ lim, Tarea4.LIMITES[s + i]? = some lim ∧
          lim.1 ≤ res.getD i 0 ∧ res.getD i 0 ≤ lim.2 := by
  intro l
  induction l with
  | nil =>
    intro s res hok
    simp only [Tarea4.mutar_genes] at hok
    injection hok with hok
    subst hok
    exact ⟨rfl, by intro i hi; simp at hi⟩
  | cons v t ih =>
    intro s res hok
    simp only [Tarea4.mutar_genes] at hok
    by_cases hu : u s < p
    · rw [if_pos hu] at hok
      cases hL : Tarea4.LIMITES[s]? with
      | none =>
        rw [hL] at hok
        dsimp only at hok
        rw [except_bind_error] at hok
        exact absurd hok (by simp)
      | some lim =>
        rw [hL] at hok
        dsimp only at hok
        rw [except_bind_ok] at hok
        cases ht : Tarea4.mutar_genes u g p (s + 1) t with
        | error e =>
          rw [ht, except_bind_error] at hok
          exact absurd hok (by simp)
        | ok resto2 =>
          rw [ht, except_bind_ok] at hok
          injection hok with hok
          subst hok
          obtain ⟨ihlen, ihmem⟩ := ih (s + 1) resto2 ht
          have hlim : lim.1 ≤ lim.2 := by
            have hmem : lim ∈ Tarea4.LIMITES := by
              obtain ⟨hlt, hget⟩ := List.getElem?_eq_some.mp hL
              rw [← hget]
              exact List.getElem_mem hlt
            exact limites_lower_le_upper lim hmem
          constructor
          · simp [ihlen]
          · intro i hi
            cases i with
            | zero =>
              right
              refine ⟨lim, ?_, ?_⟩
              · rw [Nat.add_zero]
                exact hL
              · exact (recortar_mem (v + g s) hlim)
            | succ i2 =>
              have hi2 : i2 < resto2.length := by
                simp at hi
                omega
              have := ihmem i2 hi2
              have harith : s + 1 + i2 = s + (i2 + 1) := by omega
              rw [harith] at this
              simpa using this
    · rw [if_neg hu, except_bind_ok] at hok
      cases ht : Tarea4.mutar_genes u g p (s + 1) t with
      | error e =>
        rw [ht, except_bind_error] at hok
        exact absurd hok (by simp)
      | ok resto2 =>
        rw [ht, except_bind_ok] at hok
        injection hok with hok
        subst hok
        obtain ⟨ihlen, ihmem⟩ := ih (s + 1) resto2 ht
        constructor
        · simp [ihlen]
        · intro i hi
          cases i with
          | zero => left; rfl
          | succ i2 =>
            have hi2 : i2 < resto2.length := by
              simp at hi
              omega
            have := ihmem i2 hi2
            have harith : s + 1 + i2 = s + (i2 + 1) := by omega
            rw [harith] at this
            simpa using this

/-- Counterexample to claim C7 as stated: an input individual with a gene
outside its bound that is not mutated (the draw 1 is not below pMut = 0) is
returned unchanged, so the returned gene 100 does not lie in the bound
(10, 50) of gene 0.  Containment only holds for the genes that mutation
touches (or for in-bounds inputs). -/
theorem C7_counterexample :
    Tarea4.mutar_individuo_real (fun _ => 1) (fun _ => 0) [100] 0 1 =
      .ok [100] ∧
    ¬ ((10 : ℚ) ≤ 100 ∧ (100 : ℚ) ≤ 50) := by
  constructor
  · rfl
  · norm_num

/-- Claim C7 (amended): every gene of the individual returned by
mutar_individuo_real either is copied unchanged from the input (mutation did
not fire there) or lies within that gene's own bound from LIMITES,
regardless of the perturbation magnitude g; consequently every mutated gene
is inside its bound, and an in-bounds input yields an in-bounds output. -/
theorem C7_gaussian_clamp_containment (u g : ℕ → ℚ) (individuo : List ℚ)
    (probabilidad_mutacion sigma : ℚ) (res : List ℚ)
    (hok : Tarea4.mutar_individuo_real u g individuo probabilidad_mutacion
      sigma = .ok res) :
    res.length = individuo.length ∧
    ∀ i < res.length,
      res.getD i 0 = individuo.getD i 0 ∨
      ∃ lim, Tarea4.LIMITES[i]? = some lim ∧
        lim.1 ≤ res.getD i 0 ∧ res.getD i 0 ≤ lim.2 := by
  have h := mutar_genes_spec u g probabilidad_mutacion individuo 0 res hok
  refine ⟨h.1, ?_⟩
  intro i hi
  have := h.2 i hi
  simpa using this

/-- Witness for C7: both genes mutate with a huge perturbation and are
clamped to their upper bounds. -/
theorem C7_gaussian_clamp_containment_witness :
    ([(50 : ℚ), 100] : List ℚ).length = ([(30 : ℚ), 60] : List ℚ).length ∧
    ∀ i < ([(50 : ℚ), 100] : List ℚ).length,
      ([(50 : ℚ), 100] : List ℚ).getD i 0 = [(30 : ℚ), 60].getD i 0 ∨
      ∃ lim, Tarea4.LIMITES[i]? = some lim ∧
        lim.1 ≤ ([(50 : ℚ), 100] : List ℚ).getD i 0 ∧
        ([(50 : ℚ), 100] : List ℚ).getD i 0 ≤ lim.2 :=
  C7_gaussian_clamp_containment (fun _ => 0) (fun _ => 1000) [30, 60]
    (1 / 2) 1 [50, 100] (by decide)

/-- decodificar on a nonempty bit list with valid bounds succeeds and the
decoded value lies inside the bounds. -/
theorem decodificar_mem (bits : List ℕ) (a b : ℚ) (hab : a < b)
    (hne : bits ≠ []) :
    ∃ x, Tarea2.decodificar bits a b = .ok x ∧ a ≤ x ∧ x ≤ b := by
  refine ⟨_, decodificar_eq_ok bits a b hab hne, ?_, ?_⟩
  all_goals
    have hlen : 1 ≤ bits.length := List.length_pos.mpr hne
    have hklt : GA.intOfBits bits < 2 ^ bits.length := GA.intOfBits_lt bits
    have h2 : 2 ≤ 2 ^ bits.length := by
      calc (2 : ℕ) = 2 ^ 1 := by norm_num
      _ ≤ 2 ^ bits.length := Nat.pow_le_pow_right (by norm_num) hlen
    have hM : ((1 <<< bits.length) - 1 : ℕ) = 2 ^ bits.length - 1 := by
      rw [Nat.one_shiftLeft]
    have hMpos : (0 : ℚ) < (((1 <<< bits.length) - 1 : ℕ) : ℚ) := by
      rw [hM]
      have : 1 ≤ 2 ^ bits.length - 1 := by omega
      exact_mod_cast Nat.lt_of_lt_of_le (by norm_num) this
    have hk_le : (GA.intOfBits bits : ℚ) ≤ (((1 <<< bits.length) - 1 : ℕ) : ℚ) := by
      rw [hM]
      have : GA.intOfBits bits ≤ 2 ^ bits.length - 1 := by omega
      exact_mod_cast this
    have hratio0 : 0 ≤ (GA.intOfBits bits : ℚ) /
        (((1 <<< bits.length) - 1 : ℕ) : ℚ) :=
      div_nonneg (by positivity) (le_of_lt hMpos)
    have hratio1 : (GA.intOfBits bits : ℚ) /
        (((1 <<< bits.length) - 1 : ℕ) : ℚ) ≤ 1 := by
      rw [div_le_one hMpos]
      exact hk_le
  · nlinarith
  · nlinarith

theorem tarea3_decodificar_mem (bits : List ℕ) (a b : ℚ) (hab : a < b)
    (hne : bits ≠ []) :
    ∃ x, Tarea3.decodificar bits a b = .ok x ∧ a ≤ x ∧ x ≤ b :=
  decodificar_mem bits a b hab hne

/-- decodificar_individuo on a 30-bit chromosome with the default box
bounds succeeds and each decoded dimension is inside its range. -/
theorem decodificar_individuo_spec (c : List ℕ) (hc : c.length = 30) :
    ∃ l w h, Tarea3.decodificar_individuo c Tarea3.RANGOS 10 = .ok (l, w, h) ∧
      10 ≤ l ∧ l ≤ 50 ∧ 10 ≤ w ∧ w ≤ 50 ∧ 5 ≤ h ∧ h ≤ 30 := by
  have hchunk : ∀ i : ℕ, i ≤ 2 → ((c.drop (i * 10)).take 10) ≠ [] := by
    intro i hi
    apply List.length_pos.mp
    rw [List.length_take, List.length_drop, hc]
    omega
  obtain ⟨x0, hx0, hx0a, hx0b⟩ :=
    tarea3_decodificar_mem ((c.drop (0 * 10)).take 10) 10 50 (by norm_num)
      (hchunk 0 (by norm_num))
  obtain ⟨x1, hx1, hx1a, hx1b⟩ :=
    tarea3_decodificar_mem ((c.drop (1 * 10)).take 10) 10 50 (by norm_num)
      (hchunk 1 (by norm_num))
  obtain ⟨x2, hx2, hx2a, hx2b⟩ :=
    tarea3_decodificar_mem ((c.drop (2 * 10)).take 10) 5 30 (by norm_num)
      (hchunk 2 (by norm_num))
  have henum : Tarea3.RANGOS.enum =
      [(0, ((10 : ℚ), (50 : ℚ))), (1, (10, 50)), (2, (5, 30))] := rfl
  refine ⟨x0, x1, x2, ?_, hx0a, hx0b, hx1a, hx1b, hx2a, hx2b⟩
  simp only [Tarea3.decodificar_individuo]
  rw [if_neg (by simp [Tarea3.RANGOS, hc])]
  rw [henum]
  simp only [Tarea3.decodificar_chunks]
  rw [hx0, except_bind_ok, hx1, except_bind_ok, hx2, except_bind_ok]
  rw [except_bind_ok, except_bind_ok, except_bind_ok, except_bind_ok]

/-- aptitud on a 30-bit chromosome succeeds with a positive volume. -/
theorem aptitud_ok_pos (c : List ℕ) (hc : c.length = 30) :
    ∃ q, Tarea3.aptitud c = .ok q ∧ 0 < q := by
  obtain ⟨l, w, h, hdi, hl, _, hw, _, hh, _⟩ := decodificar_individuo_spec c hc
  refine ⟨Tarea3.volumen_caja l w h, ?_, ?_⟩
  · simp only [Tarea3.aptitud]
    rw [hdi, except_bind_ok]
  · unfold Tarea3.volumen_caja
    have h1 : (0 : ℚ) < l := by linarith
    have h2 : (0 : ℚ) < w := by linarith
    have h3 : (0 : ℚ) < h := by linarith
    positivity

/-- evaluar_poblacion on a population of 30-bit chromosomes succeeds, has
the same length, is computed pointwise by aptitud, and is positive. -/
theorem evaluar_poblacion_spec :
    ∀ (l : List (List ℕ)), (∀ c ∈ l, c.length = 30) →
      ∃ apt, Tarea3.evaluar_poblacion l = .ok apt ∧
        apt.length = l.length ∧
        (∀ i < l.length, Tarea3.aptitud (l.getD i []) = .ok (apt.getD i 0)) ∧
        (∀ q ∈ apt, 0 < q) := by
  intro l
  induction l with
  | nil =>
    intro _
    exact ⟨[], rfl, rfl, by intro i hi; simp at hi, by intro q hq; simp at hq⟩
  | cons c t ih =>
    intro hmem
    obtain ⟨q, hq, hqpos⟩ := aptitud_ok_pos c (hmem c (by simp))
    obtain ⟨apt, hapt, hlen, hpt, hpos⟩ := ih (fun x hx => hmem x (by simp [hx]))
    refine ⟨q :: apt, ?_, by simp [hlen], ?_, ?_⟩
    · simp only [Tarea3.evaluar_poblacion]
      rw [hq, except_bind_ok, hapt, except_bind_ok]
    · intro i hi
      cases i with
      | zero => exact hq
      | succ i2 =>
        have : i2 < t.length := by
          simp at hi
          omega
        simpa using hpt i2 this
    · intro x hx
      rcases List.mem_cons.mp hx with h | h
      · rw [h]; exact hqpos
      · exact hpos x h

/-- With at least two probabilities, indices_mejores with k = 2 returns two
distinct in-range indices (the head of the stable descending sort). -/
theorem indices_mejores_two (probs : List ℚ) (h2 : 2 ≤ probs.length) :
    ∃ i1 i2, Tarea3.indices_mejores probs 2 = .ok [i1, i2] ∧
      i1 < probs.length ∧ i2 < probs.length ∧ i1 ≠ i2 := by
  obtain ⟨hslen, hsnodup, hsmem, _, _⟩ :=
    insertionSort_range_facts (Tarea3.claveDesc probs) probs.length
  set orden := List.insertionSort (Tarea3.claveDesc probs)
    (List.range probs.length) with hordendef
  match horden : orden with
  | [] =>
    simp at hslen
    omega
  | [i1] =>
    simp at hslen
    omega
  | i1 :: i2 :: rest =>
    refine ⟨i1, i2, ?_, ?_, ?_, ?_⟩
    · simp only [Tarea3.indices_mejores]
      rw [if_neg (by omega), if_neg (by omega)]
      rw [← hordendef]
      rfl
    · exact hsmem i1 (by simp)
    · exact hsmem i2 (by simp)
    · intro heq
      rw [List.nodup_cons] at hsnodup
      exact hsnodup.1 (heq ▸ List.mem_cons_self i2 rest)

/-- With at least two aptitudes, the stable ascending sort of the indices
starts with two distinct in-range indices that relate to every later
index. -/
theorem peores_two (apt : List ℚ) (h2 : 2 ≤ apt.length) :
    ∃ p0 p1 rest,
      List.insertionSort (Tarea3.claveAsc apt) (List.range apt.length) =
        p0 :: p1 :: rest ∧
      p0 < apt.length ∧ p1 < apt.length ∧ p0 ≠ p1 ∧
      (∀ j ∈ rest, Tarea3.claveAsc apt p0 j ∧ Tarea3.claveAsc apt p1 j ∧
        j ≠ p0 ∧ j ≠ p1 ∧ j < apt.length) := by
  obtain ⟨hslen, hsnodup, hsmem, hspair, _⟩ :=
    insertionSort_range_facts (Tarea3.claveAsc apt) apt.length
  set orden := List.insertionSort (Tarea3.claveAsc apt)
    (List.range apt.length) with hordendef
  match horden : orden with
  | [] =>
    simp at hslen
    omega
  | [p0] =>
    simp at hslen
    omega
  | p0 :: p1 :: rest =>
    rw [List.pairwise_cons] at hspair
    have hspair2 := hspair.2
    rw [List.pairwise_cons] at hspair2
    rw [List.nodup_cons] at hsnodup
    have hsnodup2 := hsnodup.2
    rw [List.nodup_cons] at hsnodup2
    refine ⟨p0, p1, rest, rfl, hsmem p0 (by simp), hsmem p1 (by simp), ?_, ?_⟩
    · intro heq
      exact hsnodup.1 (heq ▸ List.mem_cons_self p1 rest)
    · intro j hj
      refine ⟨hspair.1 j (by simp [hj]), hspair2.1 j hj, ?_, ?_,
        hsmem j (by simp [hj])⟩
      · intro heq
        apply hsnodup.1
        rw [← heq]
        exact List.mem_cons_of_mem p1 hj
      · intro heq
        apply hsnodup2.1
        rw [← heq]
        exact hj

/-- Tarea3 one-point crossover on two 30-bit parents succeeds and both
children have 30 bits, whatever the crossover point. -/
theorem cruce3_ok (punto : ℕ) (p1 p2 : List ℕ) (h1 : p1.length = 30)
    (h2 : p2.length = 30) :
    ∃ c1 c2, Tarea3.cruce_un_punto punto p1 p2 = .ok (c1, c2) ∧
      c1.length = 30 ∧ c2.length = 30 := by
  simp only [Tarea3.cruce_un_punto]
  rw [if_neg (by omega), if_neg (by omega)]
  refine ⟨_, _, rfl, ?_, ?_⟩ <;>
    · rw [List.length_append, List.length_take, List.length_drop]
      omega

theorem mutar_bits_length (u : ℕ → ℚ) (p : ℚ) :
    ∀ (s : ℕ) (l : List ℕ), (GA.mutar_bits u p s l).length = l.length := by
  intro s l
  induction l generalizing s with
  | nil => rfl
  | cons b t ih => simp [GA.mutar_bits, ih]

/-- Tarea3 mutation succeeds for a probability inside [0, 1] and preserves
the chromosome length. -/
theorem mutar3_ok (u : ℕ → ℚ) (crom : List ℕ) (p : ℚ) (hp0 : 0 ≤ p)
    (hp1 : p ≤ 1) :
    Tarea3.mutar_cromosoma u crom p = .ok (GA.mutar_bits u p 0 crom) := by
  simp only [Tarea3.mutar_cromosoma]
  rw [if_neg (not_not_intro ⟨hp0, hp1⟩)]

theorem getD_mem_of_lt {α : Type} (l : List α) (i : ℕ) (d : α)
    (h : i < l.length) : l.getD i d ∈ l := by
  rw [List.getD_eq_getElem l d h]
  exact List.getElem_mem h

theorem getD_set_ne {α : Type} (l : List α) (i j : ℕ) (a d : α)
    (h : i ≠ j) : (l.set i a).getD j d = l.getD j d := by
  rw [List.getD_eq_getElem?_getD, List.getD_eq_getElem?_getD,
    List.getElem?_set_ne h]

/-- One steady-state step on a population of at least two 30-bit
chromosomes with a valid mutation probability: it succeeds, preserves the
population length and the chromosome length, overwrites exactly the two
slots p0 and p1 at the head of the stable ascending aptitude sort, and
leaves every other slot unchanged. -/
theorem evolucionar_paso_spec (punto : ℕ) (u1 u2 : ℕ → ℚ)
    (poblacion : List (List ℕ)) (p_mut : ℚ) (hn : 2 ≤ poblacion.length)
    (hlen : ∀ c ∈ poblacion, c.length = 30) (hp0 : 0 ≤ p_mut)
    (hp1 : p_mut ≤ 1) :
    ∃ apt pobl2 p0 p1 rest,
      Tarea3.evaluar_poblacion poblacion = .ok apt ∧
      apt.length = poblacion.length ∧
      (∀ i < poblacion.length,
        Tarea3.aptitud (poblacion.getD i []) = .ok (apt.getD i 0)) ∧
      Tarea3.evolucionar_paso punto u1 u2 poblacion p_mut = .ok pobl2 ∧
      pobl2.length = poblacion.length ∧
      (∀ c ∈ pobl2, c.length = 30) ∧
      List.insertionSort (Tarea3.claveAsc apt) (List.range apt.length) =
        p0 :: p1 :: rest ∧
      p0 < apt.length ∧ p1 < apt.length ∧ p0 ≠ p1 ∧
      (∀ j ∈ rest, Tarea3.claveAsc apt p0 j ∧ Tarea3.claveAsc apt p1 j ∧
        j ≠ p0 ∧ j ≠ p1 ∧ j < apt.length) ∧
      (∀ j, j ≠ p0 → j ≠ p1 → pobl2.getD j [] = poblacion.getD j []) := by
  obtain ⟨apt, heval, haptlen, hpt, _⟩ := evaluar_poblacion_spec poblacion hlen
  have hne : apt ≠ [] := by
    intro h
    rw [h] at haptlen
    simp at haptlen
    omega
  obtain ⟨probs, hprobs, hplen⟩ : ∃ probs,
      Tarea3.probabilidades_seleccion apt = .ok probs ∧
      probs.length = apt.length := by
    simp only [Tarea3.probabilidades_seleccion]
    rw [if_neg hne]
    split_ifs with h
    · exact ⟨_, rfl, by simp⟩
    · exact ⟨_, rfl, by simp⟩
  obtain ⟨i1, i2, hidx, hi1, hi2, hne12⟩ := indices_mejores_two probs (by omega)
  have hall : [i1, i2].all (fun i => decide (i < poblacion.length)) = true := by
    simp only [List.all_cons, List.all_nil, Bool.and_true]
    rw [decide_eq_true (show i1 < poblacion.length by omega),
        decide_eq_true (show i2 < poblacion.length by omega)]
    rfl
  have hsel : Tarea3.seleccionar_mejores poblacion probs 2 =
      .ok [poblacion.getD i1 [], poblacion.getD i2 []] := by
    simp only [Tarea3.seleccionar_mejores]
    rw [hidx, except_bind_ok, if_pos hall]
    rfl
  have hpadre1 : (poblacion.getD i1 []).length = 30 :=
    hlen _ (getD_mem_of_lt poblacion i1 [] (by omega))
  have hpadre2 : (poblacion.getD i2 []).length = 30 :=
    hlen _ (getD_mem_of_lt poblacion i2 [] (by omega))
  obtain ⟨c1, c2, hcruce, hc1, hc2⟩ := cruce3_ok punto _ _ hpadre1 hpadre2
  have hmut1 := mutar3_ok u1 c1 p_mut hp0 hp1
  have hmut2 := mutar3_ok u2 c2 p_mut hp0 hp1
  obtain ⟨p0, p1, rest, hsort, hp0lt, hp1lt, hp01, hrest⟩ :=
    peores_two apt (by omega)
  refine ⟨apt, (poblacion.set p0 (GA.mutar_bits u1 p_mut 0 c1)).set p1
    (GA.mutar_bits u2 p_mut 0 c2), p0, p1, rest, heval, haptlen, hpt, ?_, ?_,
    ?_, hsort, hp0lt, hp1lt, hp01, hrest, ?_⟩
  · simp only [Tarea3.evolucionar_paso]
    rw [heval, except_bind_ok, hprobs, except_bind_ok, hsel, except_bind_ok]
    dsimp only
    rw [hcruce, except_bind_ok]
    dsimp only
    rw [hmut1, except_bind_ok, hmut2, except_bind_ok]
    rw [hsort]
    rfl
  · simp
  · intro c hc
    rcases List.mem_or_eq_of_mem_set hc with hcm | hcm
    · rcases List.mem_or_eq_of_mem_set hcm with hcm2 | hcm2
      · exact hlen c hcm2
      · rw [hcm2, mutar_bits_length]
        exact hc1
    · rw [hcm, mutar_bits_length]
      exact hc2
  · intro j hj0 hj1
    rw [getD_set_ne _ _ _ _ _ (Ne.symm hj1), getD_set_ne _ _ _ _ _ (Ne.symm hj0)]

/-- Claim C1: for a population of size > 4 (30-bit chromosomes, valid
mutation probability) whose evaluation has a unique strict maximum (no
fitness ties at the extremes), one steady-state step succeeds and the new
population evaluates to a fitness list containing a value at least as large
as every fitness of the input population: the best fitness never
decreases. -/
theorem C1_steady_state_monotonicity (punto : ℕ) (u1 u2 : ℕ → ℚ)
    (poblacion : List (List ℕ)) (p_mut : ℚ) (apt : List ℚ) (ib : ℕ)
    (hn : 4 < poblacion.length) (hlen : ∀ c ∈ poblacion, c.length = 30)
    (hp0 : 0 ≤ p_mut) (hp1 : p_mut ≤ 1)
    (heval : Tarea3.evaluar_poblacion poblacion = .ok apt)
    (hib : ib < apt.length)
    (hmax : ∀ j < apt.length, j ≠ ib → apt.getD j 0 < apt.getD ib 0) :
    ∃ pobl2 apt2,
      Tarea3.evolucionar_paso punto u1 u2 poblacion p_mut = .ok pobl2 ∧
      Tarea3.evaluar_poblacion pobl2 = .ok apt2 ∧
      ∃ x ∈ apt2, ∀ y ∈ apt, y ≤ x := by
  obtain ⟨apt0, pobl2, p0, p1, rest, heval0, hlen0, hpt0, hpaso, hplen2,
    hmem2, hsort, hp0lt, hp1lt, hp01, hrest, hgetD⟩ :=
    evolucionar_paso_spec punto u1 u2 poblacion p_mut (by omega) hlen hp0 hp1
  have hapteq : apt0 = apt := by
    injection heval0.symm.trans heval
  subst hapteq
  have hsortlen : (p0 :: p1 :: rest).length = apt0.length := by
    rw [← hsort]
    have := (List.perm_insertionSort (Tarea3.claveAsc apt0)
      (List.range apt0.length)).length_eq
    rw [this, List.length_range]
  rcases rest with _ | ⟨c, rest2⟩
  · exfalso
    simp at hsortlen
    omega
  · have hc := hrest c (by simp)
    have hibp0 : ib ≠ p0 := by
      intro h
      have h1 := hc.1
      have h2 : apt0.getD c 0 < apt0.getD ib 0 := by
        refine hmax c hc.2.2.2.2 ?_
        intro hcib
        exact hc.2.2.1 (by rw [hcib, h])
      unfold Tarea3.claveAsc at h1
      rw [← h] at h1
      linarith
    have hibp1 : ib ≠ p1 := by
      intro h
      have h1 := hc.2.1
      have h2 : apt0.getD c 0 < apt0.getD ib 0 := by
        refine hmax c hc.2.2.2.2 ?_
        intro hcib
        exact hc.2.2.2.1 (by rw [hcib, h])
      unfold Tarea3.claveAsc at h1
      rw [← h] at h1
      linarith
    have hkeep : pobl2.getD ib [] = poblacion.getD ib [] := hgetD ib hibp0 hibp1
    obtain ⟨apt2, heval2, hlen2b, hpt2, _⟩ := evaluar_poblacion_spec pobl2 hmem2
    have hx : Tarea3.aptitud (pobl2.getD ib []) = .ok (apt2.getD ib 0) :=
      hpt2 ib (by omega)
    have hx0 : Tarea3.aptitud (poblacion.getD ib []) = .ok (apt0.getD ib 0) :=
      hpt0 ib (by omega)
    rw [hkeep] at hx
    have heq : apt2.getD ib 0 = apt0.getD ib 0 := by
      injection hx.symm.trans hx0
    refine ⟨pobl2, apt2, hpaso, heval2, ⟨apt2.getD ib 0, ?_, ?_⟩⟩
    · exact getD_mem_of_lt apt2 ib 0 (by omega)
    · intro y hy
      obtain ⟨jy, hjy, hjy2⟩ := List.mem_iff_getElem.mp hy
      have hyg : apt0.getD jy 0 = y := by
        rw [List.getD_eq_getElem _ _ hjy, hjy2]
      rw [heq, ← hyg]
      by_cases hj : jy = ib
      · rw [hj]
      · exact le_of_lt (hmax jy hjy hj)

/-- Witness for C1: a five-individual population of 30-bit chromosomes with
fitness values (500, 2500, 12500, 75000, 3000) and unique maximum at index
3, stepped with p_mut = 0 and crossover point 7. -/
theorem C1_steady_state_monotonicity_witness :
    ∃ pobl2 apt2,
      Tarea3.evolucionar_paso 7 (fun _ => 1) (fun _ => 1)
        [List.replicate 30 0, List.replicate 10 1 ++ List.replicate 20 0,
         List.replicate 20 1 ++ List.replicate 10 0, List.replicate 30 1,
         List.replicate 20 0 ++ List.replicate 10 1] 0 = .ok pobl2 ∧
      Tarea3.evaluar_poblacion pobl2 = .ok apt2 ∧
      ∃ x ∈ apt2, ∀ y ∈ [(500 : ℚ), 2500, 12500, 75000, 3000], y ≤ x :=
  C1_steady_state_monotonicity 7 (fun _ => 1) (fun _ => 1)
    [List.replicate 30 0, List.replicate 10 1 ++ List.replicate 20 0,
     List.replicate 20 1 ++ List.replicate 10 0, List.replicate 30 1,
     List.replicate 20 0 ++ List.replicate 10 1] 0
    [500, 2500, 12500, 75000, 3000] 3 (by norm_num) (by decide)
    (by norm_num) (by norm_num) (by decide) (by norm_num) (by decide)

theorem foldl_mejor_mem (apt : List ℚ) :
    ∀ (resto : List ℕ) (i0 : ℕ),
      resto.foldl
        (fun b x => if apt.getD b 0 < apt.getD x 0 then x else b) i0 ∈
        i0 :: resto := by
  intro resto
  induction resto with
  | nil => intro i0; simp
  | cons x t ih =>
    intro i0
    rw [List.foldl_cons]
    rcases List.mem_cons.mp
        (ih (if apt.getD i0 0 < apt.getD x 0 then x else i0)) with h | h
    · rw [h]
      split_ifs
      · simp
      · simp
    · exact List.mem_cons_of_mem _ (List.mem_cons_of_mem _ h)

/-- The Python max over a nonempty index list with in-range aptitudes
succeeds and returns one of the indices. -/
theorem mejor_de_indices_ok (indices : List ℕ) (apt : List ℚ)
    (hne : indices ≠ []) (hm : ∀ i ∈ indices, i < apt.length) :
    ∃ b, Tarea2.mejor_de_indices indices apt = .ok b ∧ b ∈ indices := by
  match indices, hne with
  | i0 :: resto, _ =>
    simp only [Tarea2.mejor_de_indices]
    rw [if_pos]
    · exact ⟨_, rfl, foldl_mejor_mem apt resto i0⟩
    · rw [List.all_eq_true]
      intro x hx
      exact decide_eq_true (hm x hx)

theorem seleccion_torneo_go_ok (idxDraw : ℕ → ℕ → ℕ)
    (poblacion : List (List ℕ)) (apt : List ℚ) (t : ℕ)
    (hlen : apt.length = poblacion.length) (ht : 1 ≤ t)
    (hdraw : ∀ it j, idxDraw it j < poblacion.length) :
    ∀ its, ∃ res,
      Tarea2.seleccion_torneo_go idxDraw poblacion apt t its = .ok res ∧
      res.length = its.length := by
  intro its
  induction its with
  | nil => exact ⟨[], rfl, rfl⟩
  | cons it rest ih =>
    obtain ⟨res, hres, hreslen⟩ := ih
    have hne : ((List.range t).map (idxDraw it)) ≠ [] := by
      intro h
      have := congrArg List.length h
      simp at this
      omega
    have hm : ∀ i ∈ (List.range t).map (idxDraw it), i < apt.length := by
      intro i hi
      obtain ⟨j, _, hj2⟩ := List.mem_map.mp hi
      rw [← hj2, hlen]
      exact hdraw it j
    obtain ⟨b, hb, hbmem⟩ := mejor_de_indices_ok _ apt hne hm
    refine ⟨poblacion.getD b [] :: res, ?_, by simp [hreslen]⟩
    simp only [Tarea2.seleccion_torneo_go]
    rw [hb, except_bind_ok]
    rw [if_pos (by have := hm b hbmem; omega)]
    rw [hres, except_bind_ok]

/-- Tarea2 crossover on equal-length parents of length at least 2 always
succeeds (firing or not). -/
theorem cruce2_ok (r : ℚ) (punto : ℕ) (p1 p2 : List ℕ) (pc : ℚ)
    (hl : p1.length = p2.length) (h2 : 2 ≤ p1.length) :
    ∃ c1 c2, Tarea2.cruce_un_punto r punto p1 p2 pc = .ok (c1, c2) := by
  simp only [Tarea2.cruce_un_punto]
  rw [if_neg (by omega)]
  split_ifs with hfire hshort
  · exact ⟨p1, p2, rfl⟩
  · exact absurd hshort (by omega)
  · exact ⟨_, _, rfl⟩

/-- The pairwise crossover loop preserves the population length whenever
all chromosomes share a length of at least 2 (fuel-indexed induction, two
list elements consumed per step). -/
theorem cruzar_pares_ok (rs : ℕ → ℚ) (pts : ℕ → ℕ) (pc : ℚ) (L : ℕ)
    (hL : 2 ≤ L) :
    ∀ (n : ℕ) (l : List (List ℕ)) (j : ℕ), l.length ≤ n →
      (∀ c ∈ l, c.length = L) →
      ∃ res, Tarea2.cruzar_pares rs pts pc j l = .ok res ∧
        res.length = l.length := by
  intro n
  induction n with
  | zero =>
    intro l j hle _
    rcases l with _ | ⟨a, t⟩
    · exact ⟨[], rfl, rfl⟩
    · simp at hle
  | succ m ih =>
    intro l j hle hmem
    rcases l with _ | ⟨padre1, rest⟩
    · exact ⟨[], rfl, rfl⟩
    rcases rest with _ | ⟨padre2, resto⟩
    · exact ⟨[padre1], rfl, rfl⟩
    have h1 : padre1.length = L := hmem _ (by simp)
    have h2 : padre2.length = L := hmem _ (by simp)
    obtain ⟨c1, c2, hc⟩ :=
      cruce2_ok (rs j) (pts j) padre1 padre2 pc (by omega) (by omega)
    obtain ⟨res, hres, hreslen⟩ := ih resto (j + 1)
      (by simp at hle ⊢; omega) (fun c hc2 => hmem c (by simp [hc2]))
    refine ⟨c1 :: c2 :: res, ?_, by simp [hreslen]⟩
    simp only [Tarea2.cruzar_pares]
    rw [hc, except_bind_ok, hres, except_bind_ok]

/-- Claim C9: population cardinality is preserved by every operator.
Tournament selection returns exactly N individuals (given an aptitude list
of matching length, a positive tournament size, and in-range index draws);
pairwise crossover over the pool returns exactly N individuals including
the odd-size case (given the population data-model invariant of a common
chromosome length of at least 2); population mutation returns exactly N
individuals unconditionally; and one steady-state step of evolucionar
returns a population of exactly N individuals (given N >= 2, 30-bit
chromosomes and a valid mutation probability). -/
theorem C9_population_cardinality :
    (∀ (idxDraw : ℕ → ℕ → ℕ) (poblacion : List (List ℕ))
        (aptitudes : List ℚ) (tamano_torneo : ℕ),
      aptitudes.length = poblacion.length → 1 ≤ tamano_torneo →
      (∀ it j, idxDraw it j < poblacion.length) →
      ∃ res, Tarea2.seleccion_torneo idxDraw poblacion aptitudes
          tamano_torneo = .ok res ∧
        res.length = poblacion.length) ∧
    (∀ (rs : ℕ → ℚ) (pts : ℕ → ℕ) (poblacion : List (List ℕ)) (pc : ℚ)
        (L : ℕ),
      2 ≤ L → (∀ c ∈ poblacion, c.length = L) →
      ∃ res, Tarea2.aplicar_cruce_poblacion rs pts poblacion pc = .ok res ∧
        res.length = poblacion.length) ∧
    (∀ (us : ℕ → ℕ → ℚ) (poblacion : List (List ℕ)) (pm : ℚ),
      (Tarea2.aplicar_mutacion_poblacion us poblacion pm).length =
        poblacion.length) ∧
    (∀ (punto : ℕ) (u1 u2 : ℕ → ℚ) (poblacion : List (List ℕ)) (p_mut : ℚ),
      2 ≤ poblacion.length → (∀ c ∈ poblacion, c.length = 30) →
      0 ≤ p_mut → p_mut ≤ 1 →
      ∃ res, Tarea3.evolucionar_paso punto u1 u2 poblacion p_mut = .ok res ∧
        res.length = poblacion.length) := by
  refine ⟨?_, ?_, ?_, ?_⟩
  · intro idxDraw poblacion aptitudes t hlen ht hdraw
    obtain ⟨res, hres, hreslen⟩ :=
      seleccion_torneo_go_ok idxDraw poblacion aptitudes t hlen ht hdraw
        (List.range poblacion.length)
    refine ⟨res, hres, ?_⟩
    rw [hreslen, List.length_range]
  · intro rs pts poblacion pc L hL hmem
    exact cruzar_pares_ok rs pts pc L hL poblacion.length poblacion 0
      (le_refl _) hmem
  · intro us poblacion pm
    simp [Tarea2.aplicar_mutacion_poblacion]
  · intro punto u1 u2 poblacion p_mut hn hlen hp0 hp1
    obtain ⟨_, pobl2, _, _, _, _, _, _, hpaso, hplen2, _, _, _, _, _, _, _⟩ :=
      evolucionar_paso_spec punto u1 u2 poblacion p_mut hn hlen hp0 hp1
    exact ⟨pobl2, hpaso, hplen2⟩

/-- Witness for C9: each operator applied at a small concrete population. -/
theorem C9_population_cardinality_witness :
    (∃ res, Tarea2.seleccion_torneo (fun _ _ => 0) [[0], [1]] [1, 2] 3 =
        .ok res ∧ res.length = 2) ∧
    (∃ res, Tarea2.aplicar_cruce_poblacion (fun _ => 0) (fun _ => 1)
        [[0, 0], [1, 1], [0, 1]] (7 / 10) = .ok res ∧ res.length = 3) ∧
    ((Tarea2.aplicar_mutacion_poblacion (fun _ _ => 0) [[0], [1], [1]]
        (1 / 100)).length = 3) ∧
    (∃ res, Tarea3.evolucionar_paso 7 (fun _ => 1) (fun _ => 1)
        [List.replicate 30 0, List.replicate 30 1] 0 = .ok res ∧
      res.length = 2) := by
  refine ⟨?_, ?_, ?_, ?_⟩
  · exact (C9_population_cardinality.1 (fun _ _ => 0) [[0], [1]] [1, 2] 3
      (by decide) (by norm_num) (fun _ _ => by norm_num))
  · exact (C9_population_cardinality.2.1 (fun _ => 0) (fun _ => 1)
      [[0, 0], [1, 1], [0, 1]] (7 / 10) 2 (by norm_num) (by decide))
  · exact (C9_population_cardinality.2.2.1 (fun _ _ => 0) [[0], [1], [1]]
      (1 / 100))
  · exact (C9_population_cardinality.2.2.2 7 (fun _ => 1) (fun _ => 1)
      [List.replicate 30 0, List.replicate 30 1] 0 (by norm_num) (by decide)
      (by norm_num) (by norm_num))
